import Mathlib

/-!
Shallow embedding of the scrabble-solver move generator and its supporting
data structures (board, move, lexicon trie), translated from the Python
sources in `src/scrabble/`.  Machine-level details that matter to the
claims are modelled explicitly: numpy's negative-index wraparound on the
15×15 grid, Python's `list.remove`/`append` discipline on the rack, and
the `KeyError` raised by a failed trie walk.
-/

namespace Scrabble

/-- `position.py` / `primitives.py`: a position is a `(row, col)` pair of
Python ints. -/
abbrev Position := Int × Int

/-- `PositionUtils.flat_pos`: `pos[0] * 15 + pos[1]`. -/
def flat_pos (p : Position) : Int := p.1 * 15 + p.2

/-- `PositionUtils.out_of_bounds`: true when a component lies outside
`[0, 14]`. -/
def out_of_bounds (p : Position) : Bool :=
  p.1 < 0 || p.1 > 14 || p.2 < 0 || p.2 > 14

/-- `PositionUtils.transpose`: swap the components. -/
def transpose_pos (p : Position) : Position := (p.2, p.1)

/-- `PositionUtils.add_pos`: componentwise addition. -/
def add_pos (p q : Position) : Position := (p.1 + q.1, p.2 + q.2)

/-- `primitives.Move`: a list of `(tile, position)` pairs.  The
`primitives.py` constructor stores the pairs exactly as given
(`self.tiles = list(tiles)`). -/
structure Move where
  tiles : List (Char × Position)
deriving DecidableEq

/-- `Move.across`: true when at most one tile is placed or the first two
tiles share a row. -/
def Move.across (m : Move) : Bool :=
  match m.tiles with
  | [] => true
  | [_] => true
  | (_, p) :: (_, q) :: _ => p.1 == q.1

/-- `Move.all_positions`: the positions of all tiles, in order. -/
def Move.all_positions (m : Move) : List Position :=
  m.tiles.map (fun tp => tp.2)

/-- `Move.transpose`: transpose every tile position. -/
def Move.transpose (m : Move) : Move :=
  ⟨m.tiles.map (fun tp => (tp.1, (tp.2.2, tp.2.1)))⟩

/-- `Move.copy`: `Move(*self.tiles)`. -/
def Move.copy (m : Move) : Move := ⟨m.tiles⟩

/-- Python's tuple comparison on `(row, col)`: lexicographic. -/
def pos_le (p q : Position) : Bool :=
  p.1 < q.1 || (p.1 == q.1 && p.2 ≤ q.2)

/-- Stable insertion of one element into a list sorted by `le` (helper for
modelling Python's stable `list.sort`). -/
def ins_by (le : α → α → Bool) (x : α) : List α → List α
  | [] => [x]
  | y :: ys => if le x y then x :: y :: ys else y :: ins_by le x ys

/-- Stable sort by `le` (insertion sort), modelling Python's `list.sort` /
`sorted`. -/
def sort_by (le : α → α → Bool) : List α → List α
  | [] => []
  | x :: xs => ins_by le x (sort_by le xs)

/-- `Move.get_word`: sort the tiles by position and concatenate the tile
characters.  Words are modelled as `List Char`. -/
def Move.get_word (m : Move) : List Char :=
  (sort_by (fun a b => pos_le a.2 b.2) m.tiles).map (fun tp => tp.1)

/-- `Move.anchored_to_moves`: lay the word out so that its
`anchor_index`-th letter sits at `anchor_pos`, across or down. -/
def Move.anchored_to_moves (word : List Char) (anchor_pos : Position)
    (anchor_index : Nat) (across : Bool := true) : Move :=
  ⟨word.enum.map (fun it =>
    if across then
      (it.2, (anchor_pos.1, anchor_pos.2 - (anchor_index : Int) + (it.1 : Int)))
    else
      (it.2, (anchor_pos.1 - (anchor_index : Int) + (it.1 : Int), anchor_pos.2)))⟩

/-- `move.py`'s older `Move.__init__` variant: uppercase every tile
character and sort the pairs by position. -/
def move_init_variant (tiles : List (Char × Position)) : Move :=
  ⟨sort_by (fun a b => pos_le a.2 b.2)
    (tiles.map (fun tp => (tp.1.toUpper, tp.2)))⟩

/-- numpy indexing on one axis of a 15-element dimension: indices in
`[0, 14]` address directly, indices in `[-15, -1]` wrap to the opposite
edge, anything else raises `IndexError` (modelled as `none`). -/
def normIdx (i : Int) : Option Nat :=
  if 0 ≤ i ∧ i ≤ 14 then some i.toNat
  else if -15 ≤ i ∧ i ≤ -1 then some (i + 15).toNat
  else none

/-- `board.Board`: a 15×15 grid of single-character cells, stored
row-major as a flat list of 225 characters (mirroring the numpy array). -/
structure Board where
  grid : List Char
deriving DecidableEq

/-- The all-empty board produced by `Board.__init__()`. -/
def Board.empty : Board := ⟨List.replicate 225 ' '⟩

/-- `Board.get_square`: `self._board[pos]` with numpy index semantics
(negative indices in `[-15, -1]` wrap; other out-of-range indices raise,
modelled as `none`). -/
def Board.get_square (b : Board) (pos : Position) : Option Char :=
  match normIdx pos.1, normIdx pos.2 with
  | some r, some c => some (b.grid.getD (r * 15 + c) ' ')
  | _, _ => none

/-- `Board.set_square`: `self._board[pos] = tile`, same index semantics as
`get_square`. -/
def Board.set_square (b : Board) (pos : Position) (tile : Char) : Option Board :=
  match normIdx pos.1, normIdx pos.2 with
  | some r, some c => some ⟨b.grid.set (r * 15 + c) tile⟩
  | _, _ => none

/-- `Board.make_move`: write each tile of the move into its cell, in
order. -/
def Board.make_move (b : Board) (m : Move) : Option Board :=
  m.tiles.foldlM (fun b tp => Board.set_square b tp.2 tp.1) b

/-- `Board.unmake_move`: write `' '` into each of the move's cells, in
order. -/
def Board.unmake_move (b : Board) (m : Move) : Option Board :=
  m.tiles.foldlM (fun b tp => Board.set_square b tp.2 ' ') b

/-- `Board.transpose`: the transposed grid (`np.transpose`). -/
def Board.transpose (b : Board) : Board :=
  ⟨(List.range 15).flatMap (fun r =>
    (List.range 15).map (fun c => b.grid.getD (c * 15 + r) ' '))⟩

/-- One step bound for board walks: a traversal along a unit direction
started inside the grid leaves the grid after at most 15 steps, so 16
iterations always reach the `out_of_bounds` break of the Python
`while True` loop. -/
def TRAVERSE_FUEL : Nat := 16

/-- `Board.traverse_until_condition`, iteration-counted: step from
`start` by `direction`, stopping (without yielding) on out-of-bounds or
when `stop_condition` holds. -/
def Board.traverse_fuel (b : Board) (start direction : Position)
    (stop_condition : Char → Position → Bool) : Nat → List (Char × Position)
  | 0 => []
  | fuel + 1 =>
    let current_pos := add_pos start direction
    if out_of_bounds current_pos then []
    else
      match b.get_square current_pos with
      | none => []
      | some current_square =>
        if stop_condition current_square current_pos then []
        else (current_square, current_pos)
          :: Board.traverse_fuel b current_pos direction stop_condition fuel

/-- `Board.traverse_until_condition`. -/
def Board.traverse_until_condition (b : Board) (start direction : Position)
    (stop_condition : Char → Position → Bool) : List (Char × Position) :=
  Board.traverse_fuel b start direction stop_condition TRAVERSE_FUEL

/-- `Board.traverse_axis_until_condition`: reversed backward traversal,
then the starting square itself, then forward traversal.  Reading the
square at `pos` can raise (`none`) exactly when `pos` is outside numpy's
accepted range. -/
def Board.traverse_axis_until_condition (b : Board) (pos axis : Position)
    (stop_condition : Char → Position → Bool) : Option (List (Char × Position)) :=
  match b.get_square pos with
  | none => none
  | some mid =>
    some ((Board.traverse_until_condition b pos (-axis.1, -axis.2) stop_condition).reverse
      ++ (mid, pos)
      :: Board.traverse_until_condition b pos axis stop_condition)

/-- `Board.traverse_axis_until_empty`: specialise the stop condition to
"the square is empty". -/
def Board.traverse_axis_until_empty (b : Board) (pos axis : Position) :
    Option (List (Char × Position)) :=
  Board.traverse_axis_until_condition b pos axis (fun tile _ => tile == ' ')

/-- `Board.get_words_formed`: apply the move, read the primary word along
the move's own axis from its first tile, read each perpendicular cross
word of length ≥ 2, then clear the move's cells.  Returns the yielded
words together with the board state left behind after full consumption of
the Python generator. -/
def Board.get_words_formed (b : Board) (move : Move) :
    Option (List Move × Board) :=
  match move.tiles with
  | [] => some ([], b)
  | (_, p0) :: _ =>
    let stop_condition : Char → Position → Bool := fun curr_square curr_pos =>
      curr_square == ' ' && !(move.all_positions.contains curr_pos)
    match Board.make_move b move with
    | none => none
    | some b1 =>
      let across := move.across
      match Board.traverse_axis_until_condition b1 p0
          (if across then ((0 : Int), (1 : Int)) else (1, 0)) stop_condition with
      | none => none
      | some base_tiles =>
        match move.tiles.mapM (fun tp =>
            Board.traverse_axis_until_condition b1 tp.2
              (if across then ((1 : Int), (0 : Int)) else (0, 1)) stop_condition) with
        | none => none
        | some cross_runs =>
          match Board.unmake_move b1 move with
          | none => none
          | some b2 =>
            some (Move.mk base_tiles
              :: (cross_runs.filter (fun run => run.length > 1)).map Move.mk, b2)

/-- `rules.py` loads the point values and premium-square coordinate sets
from a configuration file (`rules.json`, not part of the sources).  The
scorer is parameterised over this read-only table; `tile_value` models
the Python dict `TILE_VALUE` (missing keys default to 0 via `.get`). -/
structure Rules where
  DL : List Position
  TL : List Position
  DW : List Position
  TW : List Position
  tile_value : List (Char × Int)
deriving DecidableEq

/-- The premium-weighted score of one formed word, exactly as computed by
the inner loop of `Board.calc_score`: letter premiums and word premiums
apply only at positions newly placed by `move`. -/
def word_score (ru : Rules) (move : Move) (word : Move) : Int :=
  let step := fun (acc : Int × Int) (tp : Char × Position) =>
    let letter_multiplier : Int :=
      if move.all_positions.contains tp.2 then
        (if ru.DL.contains tp.2 then 2 else if ru.TL.contains tp.2 then 3 else 1)
      else 1
    let score := acc.1 + ((ru.tile_value.lookup tp.1).getD 0) * letter_multiplier
    let word_multiplier :=
      if move.all_positions.contains tp.2 then
        (if ru.DW.contains tp.2 then acc.2 * 2
         else if ru.TW.contains tp.2 then acc.2 * 3
         else acc.2)
      else acc.2
    (score, word_multiplier)
  let r := word.tiles.foldl step (0, 1)
  r.1 * r.2

/-- `Board.calc_score`: total the premium-weighted scores of all words
formed by the move, then add 50 when the move has exactly 7 tiles.  The
words come from `get_words_formed`, so the result is `none` exactly when
that call raises. -/
def Board.calc_score (ru : Rules) (b : Board) (move : Move) : Option Int :=
  match Board.get_words_formed b move with
  | none => none
  | some (words, _) =>
    let total_score := words.foldl (fun acc word => acc + word_score ru move word) 0
    some (if move.tiles.length == 7 then total_score + 50 else total_score)

/-- `dictionary.Node`: edge-labelled children plus a terminal flag.  The
children are an association list from (uppercased) edge character to
node, mirroring the Python dict. -/
inductive Node where
  | mk (terminal : Bool) (branch_nodes : List (Char × Node))

/-- The terminal flag of a node. -/
def Node.terminal : Node → Bool
  | .mk t _ => t

/-- The outgoing edges of a node, in insertion order. -/
def Node.branch_nodes : Node → List (Char × Node)
  | .mk _ bs => bs

/-- `Node.get_branch`: look the edge up after uppercasing it
(`self.branch_nodes.get(edge.upper())`). -/
def Node.get_branch (n : Node) (edge : Char) : Option Node :=
  n.branch_nodes.lookup edge.toUpper

/-- `dictionary.Tree`: a root node. -/
structure Tree where
  root_node : Node

/-- The walk inside `Tree.get_node`: follow one branch per letter,
failing with Python's `KeyError` message when an edge is missing. -/
def Node.walk : Node → List Char → Except String Node
  | n, [] => .ok n
  | n, letter :: rest =>
    match n.get_branch letter with
    | none => .error "path to node does not exist"
    | some next => next.walk rest

/-- `Tree.get_node`: uppercase the path, then walk it from the root;
raises (`Except.error`) when the path is absent. -/
def Tree.get_node (t : Tree) (path : List Char) : Except String Node :=
  t.root_node.walk (path.map Char.toUpper)

/-- `Tree.lookup`: `get_node(word.upper())` with the `KeyError`
swallowed; returns the node only when it is terminal. -/
def Tree.lookup (t : Tree) (word : List Char) : Option Node :=
  match t.get_node (word.map Char.toUpper) with
  | .ok found_node => if found_node.terminal then some found_node else none
  | .error _ => none

namespace MoveGenerator

/-- The alphabet string used by `_calc_cross_check`
(`"ABCDEFGHIJKLMNOPQRSTUVWXYZ"` appears both as the all-allowed default
and as the letter loop). -/
def all_letters : List Char :=
  ['A', 'B', 'C', 'D', 'E', 'F', 'G', 'H', 'I', 'J', 'K', 'L', 'M',
   'N', 'O', 'P', 'Q', 'R', 'S', 'T', 'U', 'V', 'W', 'X', 'Y', 'Z']

/-- Whether an in-board square holds a tile; out-of-board neighbours
count as unoccupied, matching `convolve2d`'s zero padding. -/
def occupied (b : Board) (pos : Position) : Bool :=
  !out_of_bounds pos && ((b.get_square pos).getD ' ' != ' ')

/-- `CROSS_CHECK_KERNEL` convolved at a cell: the number of occupied
squares directly above and below is at least 1. -/
def has_vertical_neighbour (b : Board) (pos : Position) : Bool :=
  occupied b (pos.1 - 1, pos.2) || occupied b (pos.1 + 1, pos.2)

/-- `ANCHOR_KERNEL` convolved at a cell: some 4-neighbour is occupied. -/
def has_orthogonal_neighbour (b : Board) (pos : Position) : Bool :=
  occupied b (pos.1 - 1, pos.2) || occupied b (pos.1 + 1, pos.2) ||
  occupied b (pos.1, pos.2 - 1) || occupied b (pos.1, pos.2 + 1)

/-- `_calc_cross_check` at one square: squares that are empty and have a
vertically adjacent tile get the set of letters whose insertion forms a
vertical run of length > 1 that is in the lexicon; every other square
keeps the all-letters default. -/
def calc_cross_check (dict : Tree) (b : Board) (pos : Position) : List Char :=
  if (b.get_square pos == some ' ') && has_vertical_neighbour b pos then
    all_letters.filter (fun letter =>
      match b.set_square pos letter with
      | none => false
      | some b2 =>
        match b2.traverse_axis_until_empty pos (1, 0) with
        | none => false
        | some run =>
          decide (run.length > 1) && (dict.lookup (run.map (fun tp => tp.1))).isSome)
  else all_letters

/-- Whether a square is in the `np.where` anchor mask of
`_calc_all_across_moves`: empty with at least one occupied
4-neighbour. -/
def is_anchor (b : Board) (pos : Position) : Bool :=
  (b.get_square pos == some ' ') && has_orthogonal_neighbour b pos

/-- The anchor list produced by the convolution + `np.where` (row-major
order over the 15×15 grid). -/
def calc_anchors (b : Board) : List Position :=
  (List.range 15).flatMap (fun r =>
    (List.range 15).filterMap (fun c =>
      if is_anchor b (Int.ofNat r, Int.ofNat c)
      then some (Int.ofNat r, Int.ofNat c) else none))

/-- The anchor list actually iterated: the computed anchors, or the sole
centre square `(7, 7)` when no square qualifies. -/
def anchors_used (b : Board) : List Position :=
  let anchors := calc_anchors b
  if anchors.isEmpty then [((7 : Int), (7 : Int))] else anchors

/-- `_left_part`: yield the current partial word and node, then (while
`limit > 0`) extend through every branch, consuming a matching rack tile
or a blank.  The rack is threaded explicitly: Python mutates the list in
place (`remove` drops the first occurrence, `append` re-adds at the
end), and the second component is the list's state when the call
returns.  The `for edge, node in current_node.branch_nodes.items()`
loop is a fold threading the yields and the rack through the
iterations. -/
def left_part (rack : List Char) (pword : List Char) (current_node : Node) :
    Nat → List (List Char × Node) × List Char
  | 0 => ([(pword, current_node)], rack)
  | limit + 1 =>
    let r := current_node.branch_nodes.foldl (fun acc en =>
      let r1 :=
        if acc.2.contains en.1 then
          let rec1 := left_part (acc.2.erase en.1) (pword ++ [en.1]) en.2 limit
          (acc.1 ++ rec1.1, rec1.2 ++ [en.1])
        else acc
      if r1.2.contains ' ' then
        let rec2 := left_part (r1.2.erase ' ') (pword ++ [en.1.toLower]) en.2 limit
        (r1.1 ++ rec2.1, rec2.2 ++ [' '])
      else r1) (([] : List (List Char × Node)), rack)
    ((pword, current_node) :: r.1, r.2)

/-- `_right_part`: extend rightward from the anchor.  Yields a copy of
`placed` whenever at least one letter sits past the main anchor
(`len(partial_word) != main_anchor_index`) and the current trie node is
terminal.  The rack is threaded exactly as in `left_part`; the `placed`
accumulator backtracking (`placed += x` before the recursive call,
`placed -= x` after, removing the pair that was just appended) is
modelled by handing the extended move to the recursive call only.  The
first argument counts loop iterations: each recursive call moves one
column to the right, so any run started in-bounds terminates within
`TRAVERSE_FUEL` steps. -/
def right_part (fuel : Nat) (b : Board) (rack : List Char)
    (main_anchor_pos : Position) (main_anchor_index : Nat)
    (cross_check : Position → List Char) (pword : List Char)
    (current_node : Node) (current_pos : Position) (placed : Move) :
    List Move × List Char :=
  match fuel with
  | 0 => ([], rack)
  | fuel + 1 =>
    if out_of_bounds current_pos then
      (if pword.length ≠ main_anchor_index ∧ current_node.terminal
       then [placed.copy] else [], rack)
    else
      match b.get_square current_pos with
      | none => ([], rack)
      | some current_tile =>
        if current_tile = ' ' then
          let init : List Move :=
            if pword.length ≠ main_anchor_index ∧ current_node.terminal
            then [placed.copy] else []
          if placed.tiles.length ≥ 7 then (init, rack)
          else
            current_node.branch_nodes.foldl (fun acc en =>
              if (cross_check current_pos).contains en.1 then
                let r1 :=
                  if acc.2.contains en.1 then
                    let rec1 := right_part fuel b (acc.2.erase en.1)
                      main_anchor_pos main_anchor_index cross_check
                      (pword ++ [en.1]) en.2 (current_pos.1, current_pos.2 + 1)
                      ⟨placed.tiles ++ [(en.1, current_pos)]⟩
                    (acc.1 ++ rec1.1, rec1.2 ++ [en.1])
                  else acc
                if r1.2.contains ' ' then
                  let rec2 := right_part fuel b (r1.2.erase ' ')
                    main_anchor_pos main_anchor_index cross_check
                    (pword ++ [en.1.toLower]) en.2 (current_pos.1, current_pos.2 + 1)
                    ⟨placed.tiles ++ [(en.1.toLower, current_pos)]⟩
                  (r1.1 ++ rec2.1, rec2.2 ++ [' '])
                else r1
              else acc) (init, rack)
        else
          match current_node.get_branch current_tile with
          | some node =>
            right_part fuel b rack main_anchor_pos main_anchor_index cross_check
              (pword ++ [current_tile]) node (current_pos.1, current_pos.2 + 1) placed
          | none => ([], rack)

/-- The `for left_part, current_node in self._left_part(...)` loop of
`_calc_all_across_moves`, with its body inlined at every yield point of
the suspended generator: `_left_part` is a generator sharing the rack
with the consumer, so when it yields a prefix of length k the k prefix
tiles are still removed from the rack, and the consumer's `_right_part`
call runs on that depleted rack; `_left_part` then resumes with the
rack state `_right_part` left behind.  This function is `_left_part`
with each `yield partial_word, current_node` replaced by the consumer's
`yield from self._right_part(board, rack, anchor, len(partial_word),
cross_check, partial_word, current_node, anchor,
Move.anchored_to_moves(partial_word, anchor, len(partial_word)))`,
threading the one shared rack throughout. -/
def left_extend (b : Board) (cross_check : Position → List Char)
    (anchor : Position) (rack : List Char) (pword : List Char)
    (current_node : Node) : Nat → List Move × List Char
  | 0 =>
    right_part TRAVERSE_FUEL b rack anchor pword.length cross_check pword
      current_node anchor (Move.anchored_to_moves pword anchor pword.length)
  | limit + 1 =>
    let y := right_part TRAVERSE_FUEL b rack anchor pword.length cross_check pword
      current_node anchor (Move.anchored_to_moves pword anchor pword.length)
    current_node.branch_nodes.foldl (fun acc en =>
      let r1 :=
        if acc.2.contains en.1 then
          let rec1 := left_extend b cross_check anchor (acc.2.erase en.1)
            (pword ++ [en.1]) en.2 limit
          (acc.1 ++ rec1.1, rec1.2 ++ [en.1])
        else acc
      if r1.2.contains ' ' then
        let rec2 := left_extend b cross_check anchor (r1.2.erase ' ')
          (pword ++ [en.1.toLower]) en.2 limit
        (r1.1 ++ rec2.1, rec2.2 ++ [' '])
      else r1) y

/-- The per-anchor body of `_calc_all_across_moves`, threading the rack:
compute the left limit; with room for a left part run the suspended
left-part enumeration with its right-part consumer (`left_extend`),
otherwise read the fixed prefix off the board, look its node up (a
missing path raises `KeyError`, caught by the surrounding `try`), and
extend. -/
def across_moves_at_anchor (dict : Tree) (b : Board)
    (cross_check : Position → List Char) (anchors : List Position)
    (rack : List Char) (anchor : Position) : List Move × List Char :=
  let limit := (b.traverse_until_condition anchor (0, -1)
    (fun _ pos => anchors.contains pos || ((b.get_square pos).getD ' ' != ' '))).length
  if limit > 0 then
    left_extend b cross_check anchor rack [] dict.root_node (min limit 6)
  else
    let existing_left_part_tiles := Move.mk
      (b.traverse_until_condition anchor (0, -1) (fun tile _ => tile == ' '))
    let lword := existing_left_part_tiles.get_word
    match dict.get_node lword with
    | .error _ => ([], rack)
    | .ok node =>
      right_part TRAVERSE_FUEL b rack anchor lword.length cross_check
        lword node anchor ⟨[]⟩

/-- `_calc_all_across_moves`: cross-checks and anchors for this board,
then the per-anchor search, threading the rack across anchors. -/
def calc_all_across_moves (dict : Tree) (b : Board) (rack : List Char) :
    List Move × List Char :=
  let cross_check := calc_cross_check dict b
  let anchors := anchors_used b
  anchors.foldl (fun acc anchor =>
    let r := across_moves_at_anchor dict b cross_check anchors acc.2 anchor
    (acc.1 ++ r.1, r.2)) (([] : List Move), rack)

/-- `calc_all_moves`: all across moves on the board, then all across
moves of the transposed board transposed back, then the empty pass
move. -/
def calc_all_moves (dict : Tree) (b : Board) (rack : List Char) : List Move :=
  let across := calc_all_across_moves dict b rack
  let down := calc_all_across_moves dict b.transpose across.2
  across.1 ++ down.1.map Move.transpose ++ [Move.mk []]

end MoveGenerator

/-! ### Helper lemmas about indexing and traversal -/

/-- The flat index addressed by a position, when numpy accepts it. -/
def flatN (p : Position) : Option Nat :=
  match normIdx p.1, normIdx p.2 with
  | some r, some c => some (r * 15 + c)
  | _, _ => none

theorem get_square_eq_flatN (b : Board) (p : Position) :
    b.get_square p = (flatN p).map (fun i => b.grid.getD i ' ') := by
  unfold Board.get_square flatN
  cases normIdx p.1 <;> cases normIdx p.2 <;> rfl

theorem set_square_eq_flatN (b : Board) (p : Position) (t : Char) :
    b.set_square p t = (flatN p).map (fun i => ⟨b.grid.set i t⟩) := by
  unfold Board.set_square flatN
  cases normIdx p.1 <;> cases normIdx p.2 <;> rfl

theorem normIdx_neg {i : Int} (h1 : -15 ≤ i) (h2 : i ≤ -1) :
    normIdx i = some (i + 15).toNat := by
  unfold normIdx
  rw [if_neg (by omega), if_pos ⟨h1, h2⟩]

theorem normIdx_nonneg {i : Int} (h1 : 0 ≤ i) (h2 : i ≤ 14) :
    normIdx i = some i.toNat := by
  unfold normIdx
  rw [if_pos ⟨h1, h2⟩]

theorem normIdx_wrap {i : Int} (h1 : -15 ≤ i) (h2 : i ≤ -1) :
    normIdx i = normIdx (i + 15) := by
  rw [normIdx_neg h1 h2, normIdx_nonneg (by omega) (by omega)]

theorem traverse_fuel_in_bounds :
    ∀ (fuel : Nat) (b : Board) (start direction : Position)
      (stop_condition : Char → Position → Bool) (tp : Char × Position),
      tp ∈ Board.traverse_fuel b start direction stop_condition fuel →
      out_of_bounds tp.2 = false := by
  intro fuel
  induction fuel with
  | zero => intro b s d st tp h; simp [Board.traverse_fuel] at h
  | succ n ih =>
    intro b s d st tp h
    simp only [Board.traverse_fuel] at h
    split at h
    · simp at h
    · rename_i hoob
      split at h
      · simp at h
      · split at h
        · simp at h
        · rcases List.mem_cons.mp h with h' | h'
          · subst h'; simpa using hoob
          · exact ih b _ d st tp h'

/-- C10: `get_square`/`set_square` do no bounds checking of their own:
positions with a component in `[-15, -1]` wrap silently to the opposite
edge (numpy negative indexing), even though `out_of_bounds` classifies
them as out of bounds; only the traversal loop rejects out-of-bounds
positions, via its `out_of_bounds` break, so it never yields one. -/
theorem board_indexing_wrap_spec :
    ∀ (b : Board) (r c : Int),
      (-15 ≤ r ∧ r ≤ -1 ∧ 0 ≤ c ∧ c ≤ 14 →
        b.get_square (r, c) = b.get_square (r + 15, c) ∧
        (b.get_square (r, c)).isSome = true ∧
        (∀ t, b.set_square (r, c) t = b.set_square (r + 15, c) t) ∧
        out_of_bounds (r, c) = true) ∧
      (0 ≤ r ∧ r ≤ 14 ∧ -15 ≤ c ∧ c ≤ -1 →
        b.get_square (r, c) = b.get_square (r, c + 15) ∧
        (b.get_square (r, c)).isSome = true ∧
        (∀ t, b.set_square (r, c) t = b.set_square (r, c + 15) t) ∧
        out_of_bounds (r, c) = true) ∧
      (∀ (direction : Position) (stop_condition : Char → Position → Bool)
        (tp : Char × Position),
        tp ∈ b.traverse_until_condition (r, c) direction stop_condition →
        out_of_bounds tp.2 = false) := by
  intro b r c
  refine ⟨?_, ?_, ?_⟩
  · rintro ⟨h1, h2, h3, h4⟩
    have hr : normIdx r = normIdx (r + 15) := normIdx_wrap h1 h2
    have hrs : normIdx r = some (r + 15).toNat := normIdx_neg h1 h2
    have hcs : normIdx c = some c.toNat := normIdx_nonneg h3 h4
    refine ⟨?_, ?_, ?_, ?_⟩
    · unfold Board.get_square; rw [hr]
    · unfold Board.get_square; rw [hrs, hcs]; rfl
    · intro t; unfold Board.set_square; rw [hr]
    · simp [out_of_bounds]; omega
  · rintro ⟨h1, h2, h3, h4⟩
    have hc : normIdx c = normIdx (c + 15) := normIdx_wrap h3 h4
    have hrs : normIdx r = some r.toNat := normIdx_nonneg h1 h2
    have hcs : normIdx c = some (c + 15).toNat := normIdx_neg h3 h4
    refine ⟨?_, ?_, ?_, ?_⟩
    · unfold Board.get_square; rw [hc]
    · unfold Board.get_square; rw [hrs, hcs]; rfl
    · intro t; unfold Board.set_square; rw [hc]
    · simp [out_of_bounds]; omega
  · intro direction stop_condition tp h
    exact traverse_fuel_in_bounds TRAVERSE_FUEL b (r, c) direction stop_condition tp h

/-- Witness for `board_indexing_wrap_spec` at `(-1, 3)`: the wrapped read
lands on row 14 and succeeds although `out_of_bounds` flags it. -/
theorem board_indexing_wrap_spec_witness :
    Board.empty.get_square (-1, 3) = Board.empty.get_square (14, 3) ∧
    (Board.empty.get_square (-1, 3)).isSome = true ∧
    out_of_bounds (-1, 3) = true := by
  have h := (board_indexing_wrap_spec Board.empty (-1) 3).1 (by norm_num)
  exact ⟨h.1, h.2.1, h.2.2.2⟩

/-! ### Uppercasing is idempotent, and the lookup / get_node relation -/

theorem char_toNat_ofNat_valid {n : Nat} (h : n.isValidChar) :
    (Char.ofNat n).toNat = n := by
  unfold Char.ofNat
  rw [dif_pos h]
  rfl

theorem toUpper_def (c : Char) :
    c.toUpper = if c.toNat ≥ 97 ∧ c.toNat ≤ 122 then Char.ofNat (c.toNat - 32) else c := by
  simp only [Char.toUpper]

theorem toUpper_toNat (c : Char) :
    c.toUpper.toNat = if c.toNat ≥ 97 ∧ c.toNat ≤ 122 then c.toNat - 32 else c.toNat := by
  rw [toUpper_def]
  by_cases h : c.toNat ≥ 97 ∧ c.toNat ≤ 122
  · rw [if_pos h, if_pos h]
    exact char_toNat_ofNat_valid (Or.inl (by omega))
  · rw [if_neg h, if_neg h]

theorem toUpper_toUpper (c : Char) : c.toUpper.toUpper = c.toUpper := by
  have hup : ¬(c.toUpper.toNat ≥ 97 ∧ c.toUpper.toNat ≤ 122) := by
    rw [toUpper_toNat]
    split <;> omega
  rw [toUpper_def c.toUpper, if_neg hup]

theorem get_branch_toUpper (n : Node) (c : Char) :
    n.get_branch c.toUpper = n.get_branch c := by
  unfold Node.get_branch
  rw [toUpper_toUpper]

theorem walk_map_toUpper (l : List Char) :
    ∀ n : Node, n.walk (l.map Char.toUpper) = n.walk l := by
  induction l with
  | nil => intro n; rfl
  | cons c rest ih =>
    intro n
    simp only [List.map_cons, Node.walk, get_branch_toUpper]
    cases n.get_branch c with
    | none => rfl
    | some next => exact ih next

theorem get_node_map_toUpper (t : Tree) (w : List Char) :
    t.get_node (w.map Char.toUpper) = t.get_node w := by
  unfold Tree.get_node
  rw [walk_map_toUpper (w.map Char.toUpper) t.root_node]

theorem walk_error_msg :
    ∀ (l : List Char) (n : Node) (e : String),
      n.walk l = .error e → e = "path to node does not exist" := by
  intro l
  induction l with
  | nil => intro n e h; simp [Node.walk] at h
  | cons c rest ih =>
    intro n e h
    simp only [Node.walk] at h
    cases hb : n.get_branch c with
    | none => rw [hb] at h; simpa using h.symm
    | some next => rw [hb] at h; exact ih next e h

/-- C6: `lookup` returns a node exactly when `get_node` succeeds on the
same word and the node reached is terminal; when the (uppercased) path is
absent, `get_node` fails with the path-not-found error while `lookup`
swallows it and returns `none`. -/
theorem lookup_get_node_spec :
    ∀ (t : Tree) (w : List Char),
      (∀ n, t.lookup w = some n ↔ (t.get_node w = .ok n ∧ n.terminal = true)) ∧
      ((∀ n, t.get_node w ≠ .ok n) →
        t.get_node w = .error "path to node does not exist" ∧ t.lookup w = none) := by
  intro t w
  have lookup_eq : t.lookup w = (match t.get_node w with
      | .ok found_node => if found_node.terminal then some found_node else none
      | .error _ => none) := by
    unfold Tree.lookup
    rw [get_node_map_toUpper]
  constructor
  · intro n
    rw [lookup_eq]
    constructor
    · intro h
      cases hg : t.get_node w with
      | error e => rw [hg] at h; simp at h
      | ok m =>
        rw [hg] at h
        dsimp only at h
        by_cases ht : m.terminal = true
        · rw [if_pos ht] at h
          injection h with h'
          subst h'
          exact ⟨rfl, ht⟩
        · rw [if_neg ht] at h; simp at h
    · rintro ⟨hg, ht⟩
      rw [hg]
      dsimp only
      rw [if_pos ht]
  · intro hih
    cases hg : t.get_node w with
    | ok m => exact absurd hg (hih m)
    | error e =>
      have he : e = "path to node does not exist" := walk_error_msg _ _ e hg
      subst he
      refine ⟨rfl, ?_⟩
      rw [lookup_eq, hg]

/-- Witness for `lookup_get_node_spec` on the one-word tree `{A}`:
`lookup` finds the terminal node for `"A"`, and on `"B"` `get_node`
errors while `lookup` returns nothing. -/
theorem lookup_get_node_spec_witness :
    (Tree.mk (Node.mk false [('A', Node.mk true [])])).lookup ['A']
      = some (Node.mk true []) ∧
    (Tree.mk (Node.mk false [('A', Node.mk true [])])).get_node ['B']
      = .error "path to node does not exist" ∧
    (Tree.mk (Node.mk false [('A', Node.mk true [])])).lookup ['B'] = none := by
  refine ⟨?_, ?_⟩
  · exact ((lookup_get_node_spec (Tree.mk (Node.mk false [('A', Node.mk true [])]))
      ['A']).1 (Node.mk true [])).mpr ⟨rfl, rfl⟩
  · exact (lookup_get_node_spec (Tree.mk (Node.mk false [('A', Node.mk true [])]))
      ['B']).2 (fun n h => by
        have he : (Tree.mk (Node.mk false [('A', Node.mk true [])])).get_node ['B']
            = Except.error "path to node does not exist" := rfl
        rw [he] at h
        exact Except.noConfusion h)

/-! ### The two Move constructors (claim about tile normalization) -/

theorem ins_by_perm (le : α → α → Bool) (x : α) :
    ∀ l : List α, (ins_by le x l).Perm (x :: l) := by
  intro l
  induction l with
  | nil => simp [ins_by]
  | cons y ys ih =>
    unfold ins_by
    split
    · exact List.Perm.refl _
    · exact (ih.cons y).trans (List.Perm.swap x y ys)

theorem sort_by_perm (le : α → α → Bool) :
    ∀ l : List α, (sort_by le l).Perm l := by
  intro l
  induction l with
  | nil => simp [sort_by]
  | cons x xs ih =>
    exact (ins_by_perm le x (sort_by le xs)).trans (ih.cons x)

/-- C2 counterexample: the `move.py` constructor stores the blank tile
`'a'` (blank used as the letter A) as uppercase `'A'`, so a blank-as-
letter tile is not stored lowercase. -/
theorem move_variant_uppercases_blank :
    (move_init_variant [('a', ((0 : Int), (0 : Int)))]).tiles
      = [('A', ((0 : Int), (0 : Int)))] ∧
    'a'.isLower = true ∧ 'A'.isLower = false := by
  refine ⟨rfl, rfl, rfl⟩

/-- C2 amended: the `primitives.py` constructor (the one used by the
board and the generator) stores the tile characters verbatim, with no
normalization, so inputs that are already encoded (real tiles uppercase,
blanks lowercase) are stored unchanged; the `move.py` variant sorts the
pairs by position and uppercases every tile character — blanks
included — so each stored character is the uppercased form of some input
character. -/
theorem move_ctor_storage :
    ∀ ts : List (Char × Position),
      (Move.mk ts).tiles = ts ∧
      ∀ cp ∈ (move_init_variant ts).tiles,
        ∃ dq ∈ ts, cp = (dq.1.toUpper, dq.2) := by
  intro ts
  refine ⟨rfl, ?_⟩
  intro cp hcp
  unfold move_init_variant at hcp
  have hmem := (sort_by_perm (fun a b => pos_le a.2 b.2)
    (ts.map (fun tp => (tp.1.toUpper, tp.2)))).mem_iff.mp hcp
  rcases List.mem_map.mp hmem with ⟨dq, hdq, heq⟩
  exact ⟨dq, hdq, heq.symm⟩

/-- Witness for `move_ctor_storage` at the single blank tile `'a'`. -/
theorem move_ctor_storage_witness :
    (Move.mk [('a', ((0 : Int), (0 : Int)))]).tiles = [('a', ((0 : Int), (0 : Int)))] ∧
    ∃ dq ∈ [(('a' : Char), ((0 : Int), (0 : Int)))],
      (('A' : Char), ((0 : Int), (0 : Int))) = (dq.1.toUpper, dq.2) := by
  refine ⟨(move_ctor_storage [('a', ((0 : Int), (0 : Int)))]).1, ?_⟩
  exact (move_ctor_storage [('a', ((0 : Int), (0 : Int)))]).2
    ('A', ((0 : Int), (0 : Int))) (by decide)

/-! ### Cross-check sets -/

theorem flatN_isSome_of_get (b : Board) (p : Position) (x : Char)
    (h : b.get_square p = some x) : ∃ i, flatN p = some i := by
  rw [get_square_eq_flatN] at h
  cases hf : flatN p with
  | none => rw [hf] at h; simp at h
  | some i => exact ⟨i, rfl⟩

theorem set_square_of_flatN {b : Board} {p : Position} {i : Nat}
    (h : flatN p = some i) (t : Char) :
    b.set_square p t = some ⟨b.grid.set i t⟩ := by
  rw [set_square_eq_flatN, h]
  rfl

theorem get_square_of_flatN {b : Board} {p : Position} {i : Nat}
    (h : flatN p = some i) :
    b.get_square p = some (b.grid.getD i ' ') := by
  rw [get_square_eq_flatN, h]
  rfl

theorem traverse_axis_some_of_flatN {b : Board} {p : Position} {i : Nat}
    (h : flatN p = some i) (axis : Position) (stop : Char → Position → Bool) :
    ∃ run, b.traverse_axis_until_condition p axis stop = some run := by
  unfold Board.traverse_axis_until_condition
  rw [get_square_of_flatN h]
  exact ⟨_, rfl⟩

open MoveGenerator in
/-- C3: an empty cell with no vertically adjacent tile keeps the
all-26-letters default cross-check; an empty cell with a vertically
adjacent tile admits exactly the letters whose insertion makes the
maximal vertical run through the cell have length > 1 and be a lexicon
word. -/
theorem cross_check_spec :
    ∀ (d : Tree) (b : Board) (pos : Position),
      all_letters.length = 26 ∧
      (b.get_square pos = some ' ' →
        (has_vertical_neighbour b pos = false →
          calc_cross_check d b pos = all_letters) ∧
        (has_vertical_neighbour b pos = true →
          ∀ L, L ∈ calc_cross_check d b pos ↔
            (L ∈ all_letters ∧ ∃ b2 run, b.set_square pos L = some b2 ∧
              b2.traverse_axis_until_empty pos (1, 0) = some run ∧
              run.length > 1 ∧
              (d.lookup (run.map (fun tp => tp.1))).isSome = true))) := by
  intro d b pos
  refine ⟨rfl, ?_⟩
  intro hempty
  constructor
  · intro hvn
    unfold calc_cross_check
    rw [if_neg (by simp [hvn])]
  · intro hvn L
    obtain ⟨i, hi⟩ := flatN_isSome_of_get b pos ' ' hempty
    have hb2 : b.set_square pos L = some ⟨b.grid.set i L⟩ := set_square_of_flatN hi L
    obtain ⟨run, hrun⟩ :=
      traverse_axis_some_of_flatN (b := ⟨b.grid.set i L⟩) hi (1, 0)
        (fun tile _ => tile == ' ')
    have hrun' : Board.traverse_axis_until_empty ⟨b.grid.set i L⟩ pos (1, 0) = some run :=
      hrun
    unfold calc_cross_check
    rw [if_pos (by simp [hempty, hvn])]
    rw [List.mem_filter]
    constructor
    · rintro ⟨hmem, hp⟩
      rw [hb2] at hp
      dsimp only at hp
      rw [hrun'] at hp
      dsimp only at hp
      simp only [Bool.and_eq_true, decide_eq_true_eq] at hp
      exact ⟨hmem, ⟨b.grid.set i L⟩, run, hb2, hrun', hp.1, hp.2⟩
    · rintro ⟨hmem, b2', run', hb2', hrun2, hlen, hlk⟩
      rw [hb2] at hb2'
      injection hb2' with hb2e
      subst hb2e
      rw [hrun'] at hrun2
      injection hrun2 with hrune
      subst hrune
      refine ⟨hmem, ?_⟩
      rw [hb2]
      dsimp only
      rw [hrun']
      dsimp only
      simp only [Bool.and_eq_true, decide_eq_true_eq]
      exact ⟨hlen, hlk⟩

open MoveGenerator in
/-- Witness for `cross_check_spec`: on a board whose only tile is `A` at
`(7, 7)`, the cell `(0, 0)` (no vertical neighbour) keeps the default
cross-check. -/
theorem cross_check_spec_witness :
    calc_cross_check (Tree.mk (Node.mk false [('A', Node.mk true [])]))
      ⟨(List.replicate 225 ' ').set (7 * 15 + 7) 'A'⟩ (0, 0) = all_letters := by
  exact ((cross_check_spec (Tree.mk (Node.mk false [('A', Node.mk true [])]))
    ⟨(List.replicate 225 ' ').set (7 * 15 + 7) 'A'⟩ (0, 0)).2 (by decide)).1 (by decide)

/-! ### Anchor squares -/

/-- A fully occupied board (all 225 cells hold `A`). -/
def full_board : Board := ⟨List.replicate 225 'A'⟩

/-- The board whose only tile is an `A` on the centre square. -/
def centre_board : Board := ⟨(List.replicate 225 ' ').set (7 * 15 + 7) 'A'⟩

open MoveGenerator in
theorem mem_calc_anchors (b : Board) (p : Position) :
    p ∈ calc_anchors b ↔ (out_of_bounds p = false ∧ is_anchor b p = true) := by
  unfold calc_anchors
  rw [List.mem_flatMap]
  constructor
  · rintro ⟨r, hr, hp⟩
    rw [List.mem_range] at hr
    rcases List.mem_filterMap.mp hp with ⟨c, hc, hif⟩
    rw [List.mem_range] at hc
    split at hif
    · rename_i ha
      injection hif with hif
      subst hif
      refine ⟨?_, ha⟩
      simp [out_of_bounds]
      omega
    · exact absurd hif (by simp)
  · rintro ⟨hob, ha⟩
    rcases p with ⟨pr, pc⟩
    have h1 : 0 ≤ pr ∧ pr ≤ 14 ∧ 0 ≤ pc ∧ pc ≤ 14 := by
      simp [out_of_bounds] at hob
      omega
    refine ⟨pr.toNat, List.mem_range.mpr (by omega), ?_⟩
    refine List.mem_filterMap.mpr ⟨pc.toNat, List.mem_range.mpr (by omega), ?_⟩
    have hpe : ((Int.ofNat pr.toNat, Int.ofNat pc.toNat) : Position) = (pr, pc) := by
      simp only [Prod.mk.injEq, Int.ofNat_eq_natCast]
      omega
    rw [hpe, if_pos ha]

open MoveGenerator in
/-- C4 counterexample: the fully occupied board has at least one placed
tile and *no* empty cell with an occupied neighbour, yet the generator
falls back to the centre square `(7, 7)` — which is itself occupied — as
its sole anchor, so the computed anchors are not the claimed set. -/
theorem anchors_full_board_fallback :
    anchors_used full_board = [((7 : Int), (7 : Int))] ∧
    calc_anchors full_board = [] ∧
    full_board.get_square (0, 0) = some 'A' ∧
    full_board.get_square (7, 7) = some 'A' := by
  refine ⟨by decide, by decide, by decide, by decide⟩

open MoveGenerator in
/-- C4 amended: whenever at least one empty cell has an occupied
orthogonal neighbour, the generator's anchors are exactly the in-bounds
empty cells with an occupied neighbour at `(row±1, col)` or
`(row, col±1)`; when no cell qualifies — the untouched board, but also
degenerate boards such as a fully occupied one — the sole anchor is the
centre `(7, 7)` (which is the correct special case only when the board
is empty). -/
theorem anchors_spec :
    ∀ b : Board,
      (∀ p, p ∈ calc_anchors b ↔
        (out_of_bounds p = false ∧ b.get_square p = some ' ' ∧
          has_orthogonal_neighbour b p = true)) ∧
      (calc_anchors b ≠ [] → anchors_used b = calc_anchors b) ∧
      (calc_anchors b = [] → anchors_used b = [((7 : Int), (7 : Int))]) := by
  intro b
  refine ⟨?_, ?_, ?_⟩
  · intro p
    rw [mem_calc_anchors]
    unfold is_anchor
    simp [Bool.and_eq_true, beq_iff_eq]
  · intro h
    unfold anchors_used
    rw [if_neg (by simpa [List.isEmpty_iff] using h)]
  · intro h
    unfold anchors_used
    rw [if_pos (by simpa [List.isEmpty_iff] using h)]

open MoveGenerator in
/-- Witness for `anchors_spec`: with a single tile at the centre,
`(6, 7)` is an anchor and the computed anchor list is the one used. -/
theorem anchors_spec_witness :
    ((6 : Int), (7 : Int)) ∈ calc_anchors centre_board ∧
    anchors_used centre_board = calc_anchors centre_board := by
  refine ⟨((anchors_spec centre_board).1 (6, 7)).mpr ⟨by decide, by decide, by decide⟩, ?_⟩
  exact (anchors_spec centre_board).2.1 (by decide)

/-! ### Scoring and the bingo bonus -/

theorem foldl_add_map (f : Move → Int) (ws : List Move) :
    ∀ init : Int, ws.foldl (fun acc w => acc + f w) init = init + (ws.map f).sum := by
  induction ws with
  | nil => intro init; simp
  | cons w rest ih =>
    intro init
    simp only [List.foldl_cons, List.map_cons, List.sum_cons]
    rw [ih]
    ring

/-- C5: `calc_score` is the sum of the premium-weighted scores of the
words formed, plus the 50-point bingo bonus exactly when the move places
exactly 7 tiles (6 or fewer get no bonus). -/
theorem calc_score_bingo_spec :
    ∀ (ru : Rules) (b : Board) (m : Move) (words : List Move) (b2 : Board),
      b.get_words_formed m = some (words, b2) →
      Board.calc_score ru b m =
        some ((words.map (word_score ru m)).sum +
          if m.tiles.length = 7 then (50 : Int) else 0) := by
  intro ru b m words b2 h
  unfold Board.calc_score
  rw [h]
  dsimp only
  rw [foldl_add_map]
  by_cases h7 : m.tiles.length = 7
  · simp [h7]
  · simp [h7]

/-- Premium-free rules with the standard values of `A` and `B`. -/
def plain_rules : Rules := ⟨[], [], [], [], [('A', 1), ('B', 3)]⟩

set_option maxRecDepth 100000 in
/-- Witness for `calc_score_bingo_spec`: placing `B` at `(7, 8)` next to
the centre `A` forms the single word `AB`; one tile placed, so no
bingo bonus. -/
theorem calc_score_bingo_spec_witness :
    Board.calc_score plain_rules centre_board ⟨[('B', ((7 : Int), (8 : Int)))]⟩ =
      some ((([(⟨[('A', ((7 : Int), (7 : Int))), ('B', ((7 : Int), (8 : Int)))]⟩ : Move)].map
        (word_score plain_rules ⟨[('B', ((7 : Int), (8 : Int)))]⟩)).sum +
        if (Move.mk [('B', ((7 : Int), (8 : Int)))]).tiles.length = 7 then (50 : Int) else 0)) := by
  exact calc_score_bingo_spec plain_rules centre_board ⟨[('B', ((7 : Int), (8 : Int)))]⟩
    [⟨[('A', ((7 : Int), (7 : Int))), ('B', ((7 : Int), (8 : Int)))]⟩]
    ⟨(centre_board.grid.set 113 'B').set 113 ' '⟩ (by decide)

/-! ### Board state after make_move / unmake_move -/

/-- The flat grid indices written by a move, paired with the characters
written (in write order). -/
def flat_writes (ts : List (Char × Position)) : List (Char × Nat) :=
  ts.filterMap (fun tp => (flatN tp.2).map (fun i => (tp.1, i)))

/-- The same indices, all written with `' '` (what `unmake_move` does). -/
def space_writes (ts : List (Char × Position)) : List (Char × Nat) :=
  ts.filterMap (fun tp => (flatN tp.2).map (fun i => ((' ' : Char), i)))

theorem space_writes_eq_map (ts : List (Char × Position)) :
    space_writes ts = (flat_writes ts).map (fun ci => ((' ' : Char), ci.2)) := by
  induction ts with
  | nil => rfl
  | cons tp rest ih =>
    unfold space_writes flat_writes at ih ⊢
    cases hf : flatN tp.2 <;> simp [hf, ih]

theorem foldlM_set_general (vf : Char → Char) :
    ∀ (ts : List (Char × Position)) (b : Board),
      (∀ tp ∈ ts, (flatN tp.2).isSome = true) →
      ts.foldlM (fun b tp => Board.set_square b tp.2 (vf tp.1)) b =
        some ⟨(ts.filterMap (fun tp => (flatN tp.2).map (fun i => (vf tp.1, i)))).foldl
          (fun g ci => g.set ci.2 ci.1) b.grid⟩ := by
  intro ts
  induction ts with
  | nil => intro b _; rfl
  | cons tp rest ih =>
    intro b hv
    have h0 : (flatN tp.2).isSome = true := hv tp (List.mem_cons_self tp rest)
    obtain ⟨i, hi⟩ := Option.isSome_iff_exists.mp h0
    rw [List.foldlM_cons, set_square_of_flatN hi]
    simp only [Option.bind_eq_bind, Option.some_bind]
    rw [ih ⟨b.grid.set i (vf tp.1)⟩ (fun q hq => hv q (List.mem_cons_of_mem tp hq))]
    simp [hi]

theorem make_move_eq (b : Board) (m : Move)
    (hv : ∀ tp ∈ m.tiles, (flatN tp.2).isSome = true) :
    Board.make_move b m =
      some ⟨(flat_writes m.tiles).foldl (fun g ci => g.set ci.2 ci.1) b.grid⟩ :=
  foldlM_set_general (fun c => c) m.tiles b hv

theorem unmake_move_eq (b : Board) (m : Move)
    (hv : ∀ tp ∈ m.tiles, (flatN tp.2).isSome = true) :
    Board.unmake_move b m =
      some ⟨(space_writes m.tiles).foldl (fun g ci => g.set ci.2 ci.1) b.grid⟩ :=
  foldlM_set_general (fun _ => ' ') m.tiles b hv

theorem foldl_set_length (ws : List (Char × Nat)) :
    ∀ g : List Char, (ws.foldl (fun g ci => g.set ci.2 ci.1) g).length = g.length := by
  induction ws with
  | nil => intro g; rfl
  | cons ci rest ih =>
    intro g
    rw [List.foldl_cons, ih, List.length_set]

theorem foldl_set_getElem? (ws : List (Char × Nat)) :
    ∀ (g : List Char) (j : Nat),
      (ws.foldl (fun g ci => g.set ci.2 ci.1) g)[j]? =
        match ws.reverse.find? (fun ci => ci.2 == j) with
        | some ci => if j < g.length then some ci.1 else none
        | none => g[j]? := by
  induction ws with
  | nil => intro g j; rfl
  | cons ci rest ih =>
    intro g j
    rw [List.foldl_cons, ih, List.reverse_cons, List.find?_append]
    cases hfr : rest.reverse.find? (fun ci => ci.2 == j) with
    | some x => simp [List.length_set]
    | none =>
      simp only [Option.or_none, Option.none_or]
      by_cases hij : ci.2 = j
      · subst hij
        simp [List.getElem?_set, List.find?_cons]
      · have hne : (ci.2 == j) = false := by simpa using hij
        simp [List.find?_cons, hne, List.getElem?_set_ne hij]

theorem set_square_some_flatN {b b' : Board} {p : Position} {t : Char}
    (h : b.set_square p t = some b') : (flatN p).isSome = true := by
  rw [set_square_eq_flatN] at h
  cases hf : flatN p with
  | none => rw [hf] at h; simp at h
  | some i => rfl

theorem foldlM_set_some_valid (vf : Char → Char) :
    ∀ (ts : List (Char × Position)) (b bout : Board),
      ts.foldlM (fun b tp => Board.set_square b tp.2 (vf tp.1)) b = some bout →
      ∀ tp ∈ ts, (flatN tp.2).isSome = true := by
  intro ts
  induction ts with
  | nil => intro b bout _ tp htp; simp at htp
  | cons tp0 rest ih =>
    intro b bout h tp htp
    rw [List.foldlM_cons] at h
    cases hs : Board.set_square b tp0.2 (vf tp0.1) with
    | none => rw [hs] at h; simp at h
    | some b' =>
      rw [hs] at h
      simp only [Option.bind_eq_bind, Option.some_bind] at h
      rcases List.mem_cons.mp htp with rfl | hmem
      · exact set_square_some_flatN hs
      · exact ih b' bout h tp hmem

theorem make_move_some_valid {b bout : Board} {m : Move}
    (h : Board.make_move b m = some bout) :
    ∀ tp ∈ m.tiles, (flatN tp.2).isSome = true :=
  foldlM_set_some_valid (fun c => c) m.tiles b bout h

theorem mapM_eq_some_map {α β : Type} (f : α → Option β) (d : β) :
    ∀ l : List α, (∀ a ∈ l, (f a).isSome = true) →
      l.mapM f = some (l.map (fun a => (f a).getD d)) := by
  intro l
  induction l with
  | nil => intro _; rfl
  | cons a rest ih =>
    intro h
    obtain ⟨x, hx⟩ := Option.isSome_iff_exists.mp (h a (List.mem_cons_self a rest))
    rw [List.mapM_cons, hx, ih (fun q hq => h q (List.mem_cons_of_mem a hq))]
    simp [hx]

theorem mem_space_writes {ts : List (Char × Position)} {ci : Char × Nat}
    (h : ci ∈ space_writes ts) :
    ci.1 = ' ' ∧ ∃ tp ∈ ts, flatN tp.2 = some ci.2 := by
  rcases List.mem_filterMap.mp h with ⟨tp, htp, heq⟩
  cases hf : flatN tp.2 with
  | none => rw [hf] at heq; simp at heq
  | some i =>
    rw [hf] at heq
    simp only [Option.map_some'] at heq
    injection heq with heq
    subst heq
    exact ⟨rfl, tp, htp, hf⟩

theorem foldl_writes_agree {ws : List (Char × Nat)} {g g' : List Char}
    (hlen : g'.length = g.length)
    (hoff : ∀ j, ws.reverse.find? (fun ci => ci.2 == j) = none → g'[j]? = g[j]?) :
    ws.foldl (fun g ci => g.set ci.2 ci.1) g' =
      ws.foldl (fun g ci => g.set ci.2 ci.1) g := by
  apply List.ext_getElem?
  intro j
  rw [foldl_set_getElem?, foldl_set_getElem?]
  cases h : ws.reverse.find? (fun ci => ci.2 == j) with
  | some ci => rw [hlen]
  | none => exact hoff j h

theorem unmake_make_grid (b : Board) (m : Move)
    (hempty : ∀ p ∈ m.all_positions, b.get_square p = some ' ') :
    (space_writes m.tiles).foldl (fun g ci => g.set ci.2 ci.1)
      ((flat_writes m.tiles).foldl (fun g ci => g.set ci.2 ci.1) b.grid) = b.grid := by
  apply List.ext_getElem?
  intro j
  rw [foldl_set_getElem?]
  cases h : (space_writes m.tiles).reverse.find? (fun ci => ci.2 == j) with
  | some ci =>
    have hci : ci ∈ space_writes m.tiles :=
      List.mem_reverse.mp (List.mem_of_find?_eq_some h)
    have hcij : ci.2 = j := by
      have := List.find?_some h
      simpa using this
    obtain ⟨hsp, tp, htp, hf⟩ := mem_space_writes hci
    rw [foldl_set_length]
    dsimp only
    have hget : b.get_square tp.2 = some ' ' :=
      hempty tp.2 (List.mem_map.mpr ⟨tp, htp, rfl⟩)
    rw [get_square_of_flatN hf] at hget
    injection hget with hget
    rw [hcij] at hf
    by_cases hj : j < b.grid.length
    · rw [if_pos hj, hsp]
      rw [List.getD_eq_getElem?_getD, hcij] at hget
      rw [List.getElem?_eq_getElem hj] at hget ⊢
      simp only [Option.getD_some] at hget
      rw [hget]
    · rw [if_neg hj, eq_comm, List.getElem?_eq_none_iff]
      omega
  | none =>
    have hflat : (flat_writes m.tiles).reverse.find? (fun ci => ci.2 == j) = none := by
      rw [space_writes_eq_map, ← List.map_reverse, List.find?_map] at h
      exact Option.map_eq_none'.mp h
    rw [foldl_set_getElem?, hflat]

theorem make_grid_after_unmake (g : List Char) (ts : List (Char × Position)) :
    (flat_writes ts).foldl (fun g ci => g.set ci.2 ci.1)
      ((space_writes ts).foldl (fun g ci => g.set ci.2 ci.1)
        ((flat_writes ts).foldl (fun g ci => g.set ci.2 ci.1) g)) =
    (flat_writes ts).foldl (fun g ci => g.set ci.2 ci.1) g := by
  apply foldl_writes_agree
  · rw [foldl_set_length, foldl_set_length]
  · intro j hnone
    have hsp : (space_writes ts).reverse.find? (fun ci => ci.2 == j) = none := by
      rw [space_writes_eq_map, ← List.map_reverse, List.find?_map]
      exact Option.map_eq_none'.mpr hnone
    rw [foldl_set_getElem?, hsp, foldl_set_getElem?, hnone]

/-- The value of `get_words_formed` when every intermediate step
succeeds. -/
theorem get_words_formed_some (b b1 : Board) (m : Move) (c0 : Char) (p0 : Position)
    (rest : List (Char × Position)) (hm : m.tiles = (c0, p0) :: rest)
    (hmk : Board.make_move b m = some b1)
    (base : List (Char × Position))
    (hbase : Board.traverse_axis_until_condition b1 p0
      (if m.across then ((0 : Int), (1 : Int)) else (1, 0))
      (fun curr_square curr_pos =>
        curr_square == ' ' && !(m.all_positions.contains curr_pos)) = some base)
    (cross_runs : List (List (Char × Position)))
    (hcross : m.tiles.mapM (fun tp => Board.traverse_axis_until_condition b1 tp.2
      (if m.across then ((1 : Int), (0 : Int)) else (0, 1))
      (fun curr_square curr_pos =>
        curr_square == ' ' && !(m.all_positions.contains curr_pos))) = some cross_runs)
    (b2 : Board) (hunm : Board.unmake_move b1 m = some b2) :
    b.get_words_formed m = some
      (Move.mk base :: (cross_runs.filter (fun run => run.length > 1)).map Move.mk,
       b2) := by
  unfold Board.get_words_formed
  rw [hm]
  dsimp only
  rw [← hm, hmk]
  dsimp only
  rw [hbase]
  dsimp only
  rw [hcross]
  dsimp only
  rw [hunm]

/-- C1, amended: fully consuming `get_words_formed(m)` restores the
board exactly whenever every position of `m` is empty on the board (in
particular for every candidate move); for a move that overlaps existing
tiles the overlapped cells are left cleared instead.  Independently of
that, a second call right after the first always yields the same
sequence of words and the same final board. -/
theorem get_words_formed_restore_and_repeat :
    ∀ (b : Board) (m : Move),
      ((∀ p ∈ m.all_positions, b.get_square p = some ' ') →
        ∃ words, b.get_words_formed m = some (words, b)) ∧
      (∀ words b2, b.get_words_formed m = some (words, b2) →
        b2.get_words_formed m = some (words, b2)) := by
  intro b m
  constructor
  · intro hempty
    cases hm : m.tiles with
    | nil =>
      refine ⟨[], ?_⟩
      unfold Board.get_words_formed
      rw [hm]
    | cons t0 rest =>
      obtain ⟨c0, p0⟩ := t0
      have hv : ∀ tp ∈ m.tiles, (flatN tp.2).isSome = true := by
        intro tp htp
        obtain ⟨i, hi⟩ := flatN_isSome_of_get b tp.2 ' '
          (hempty tp.2 (List.mem_map.mpr ⟨tp, htp, rfl⟩))
        rw [hi]; rfl
      have hmk := make_move_eq b m hv
      have hvp0 : (flatN p0).isSome = true := by
        have := hv (c0, p0) (by rw [hm]; exact List.mem_cons_self _ _)
        exact this
      obtain ⟨i0, hi0⟩ := Option.isSome_iff_exists.mp hvp0
      obtain ⟨base, hbase⟩ := traverse_axis_some_of_flatN
        (b := ⟨(flat_writes m.tiles).foldl (fun g ci => g.set ci.2 ci.1) b.grid⟩) hi0
        (if m.across then ((0 : Int), (1 : Int)) else (1, 0))
        (fun curr_square curr_pos =>
          curr_square == ' ' && !(m.all_positions.contains curr_pos))
      have hcross := mapM_eq_some_map
        (fun tp : Char × Position =>
          Board.traverse_axis_until_condition
            ⟨(flat_writes m.tiles).foldl (fun g ci => g.set ci.2 ci.1) b.grid⟩ tp.2
            (if m.across then ((1 : Int), (0 : Int)) else (0, 1))
            (fun curr_square curr_pos =>
              curr_square == ' ' && !(m.all_positions.contains curr_pos)))
        [] m.tiles
        (fun tp htp => by
          obtain ⟨i, hi⟩ := Option.isSome_iff_exists.mp (hv tp htp)
          obtain ⟨run, hr⟩ := traverse_axis_some_of_flatN
            (b := ⟨(flat_writes m.tiles).foldl (fun g ci => g.set ci.2 ci.1) b.grid⟩) hi
            (if m.across then ((1 : Int), (0 : Int)) else (0, 1))
            (fun curr_square curr_pos =>
              curr_square == ' ' && !(m.all_positions.contains curr_pos))
          simp only [hr, Option.isSome_some])
      have hunm := unmake_move_eq
        ⟨(flat_writes m.tiles).foldl (fun g ci => g.set ci.2 ci.1) b.grid⟩ m hv
      have hrun := get_words_formed_some b _ m c0 p0 rest hm hmk base hbase _ hcross
        _ hunm
      have hrestore :
          (⟨(space_writes m.tiles).foldl (fun g ci => g.set ci.2 ci.1)
            ((flat_writes m.tiles).foldl (fun g ci => g.set ci.2 ci.1) b.grid)⟩ : Board)
            = b := by
        rw [unmake_make_grid b m hempty]
      rw [hrestore] at hrun
      exact ⟨_, hrun⟩
  · intro words b2 h
    cases hm : m.tiles with
    | nil =>
      unfold Board.get_words_formed at h ⊢
      rw [hm] at h ⊢
      injection h with h
      injection h with hw hb
      subst hw
      subst hb
      rfl
    | cons t0 rest =>
      obtain ⟨c0, p0⟩ := t0
      unfold Board.get_words_formed at h
      rw [hm] at h
      dsimp only at h
      rw [← hm] at h
      cases hmk : Board.make_move b m with
      | none => rw [hmk] at h; exact absurd h (by simp)
      | some b1 =>
        rw [hmk] at h
        dsimp only at h
        cases hbase : Board.traverse_axis_until_condition b1 p0
            (if m.across then ((0 : Int), (1 : Int)) else (1, 0))
            (fun curr_square curr_pos =>
              curr_square == ' ' && !(m.all_positions.contains curr_pos)) with
        | none =>
          rw [hbase] at h
          exact absurd h (by simp)
        | some base =>
          rw [hbase] at h
          dsimp only at h
          cases hcross : m.tiles.mapM
              (fun tp : Char × Position =>
                Board.traverse_axis_until_condition b1 tp.2
                  (if m.across then ((1 : Int), (0 : Int)) else (0, 1))
                  (fun curr_square curr_pos =>
                    curr_square == ' ' && !(m.all_positions.contains curr_pos))) with
          | none => rw [hcross] at h; exact absurd h (by simp)
          | some cross_runs =>
            rw [hcross] at h
            dsimp only at h
            cases hunm : Board.unmake_move b1 m with
            | none => rw [hunm] at h; exact absurd h (by simp)
            | some b2' =>
              rw [hunm] at h
              dsimp only at h
              injection h with h
              injection h with hw hb
              subst hw
              subst hb
              have hv := make_move_some_valid hmk
              have hmk_eq := make_move_eq b m hv
              rw [hmk] at hmk_eq
              injection hmk_eq with hb1
              have hunm_eq := unmake_move_eq b1 m hv
              rw [hunm] at hunm_eq
              injection hunm_eq with hb2
              have hmk2 : Board.make_move b2' m = some b1 := by
                rw [make_move_eq b2' m hv, hb2, hb1]
                dsimp only
                rw [make_grid_after_unmake]
              exact get_words_formed_some b2' b1 m c0 p0 rest hm hmk2 base hbase
                cross_runs hcross b2' hunm

set_option maxRecDepth 100000 in
/-- Witness for `get_words_formed_restore_and_repeat`: a one-tile move
on the empty board restores the board, and the repeat part holds for
the computed first call. -/
theorem get_words_formed_restore_and_repeat_witness :
    (∃ words, Board.empty.get_words_formed ⟨[('B', ((0 : Int), (0 : Int)))]⟩
      = some (words, Board.empty)) ∧
    Board.empty.get_words_formed ⟨[('B', ((0 : Int), (0 : Int)))]⟩
      = some ([⟨[('B', ((0 : Int), (0 : Int)))]⟩], Board.empty) := by
  refine ⟨(get_words_formed_restore_and_repeat Board.empty
    ⟨[('B', ((0 : Int), (0 : Int)))]⟩).1 (by decide), by decide⟩

set_option maxRecDepth 100000 in
/-- C1 counterexample: a move whose single tile overlaps an existing
tile (`B` placed on the `A` at `(0, 0)`).  Fully consuming
`get_words_formed` leaves the overlapped cell cleared, so the board is
not restored to its prior state. -/
theorem get_words_formed_overlap_not_restored :
    Board.get_words_formed ⟨'A' :: List.replicate 224 ' '⟩
        ⟨[('B', ((0 : Int), (0 : Int)))]⟩
      = some ([⟨[('B', ((0 : Int), (0 : Int)))]⟩], ⟨' ' :: List.replicate 224 ' '⟩) ∧
    (⟨' ' :: List.replicate 224 ' '⟩ : Board) ≠ ⟨'A' :: List.replicate 224 ' '⟩ := by
  exact ⟨by decide, by decide⟩

/-! ### Rack state across the recursive search -/

theorem consume_append_perm {r0 r1 : List Char} {c : Char} (h : c ∈ r0)
    (hp : r1.Perm (r0.erase c)) : (r1 ++ [c]).Perm r0 :=
  ((hp.append_right [c]).trans (List.perm_append_singleton c (r0.erase c))).trans
    (List.perm_cons_erase h).symm

open MoveGenerator

theorem left_part_perm :
    ∀ (limit : Nat) (rack pword : List Char) (n : Node),
      ((left_part rack pword n limit).2).Perm rack := by
  intro limit
  induction limit with
  | zero => intro rack pword n; exact List.Perm.refl _
  | succ l ih =>
    intro rack pword n
    unfold left_part
    dsimp only
    refine List.foldlRecOn
      (motive := fun acc : List (List Char × Node) × List Char => (acc.2).Perm rack)
      _ _ _ (List.Perm.refl _) ?_
    intro acc hacc en _
    dsimp only
    have h1 : ((if acc.2.contains en.1 then
        (acc.1 ++ (left_part (acc.2.erase en.1) (pword ++ [en.1]) en.2 l).1,
         (left_part (acc.2.erase en.1) (pword ++ [en.1]) en.2 l).2 ++ [en.1])
      else acc).2).Perm acc.2 := by
      split
      · rename_i hc
        exact consume_append_perm (by simpa using hc) (ih ..)
      · exact List.Perm.refl _
    have h2 : ∀ r1 : List (List Char × Node) × List Char, (r1.2).Perm acc.2 →
        ((if r1.2.contains ' ' then
            (r1.1 ++ (left_part (r1.2.erase ' ') (pword ++ [en.1.toLower]) en.2 l).1,
             (left_part (r1.2.erase ' ') (pword ++ [en.1.toLower]) en.2 l).2 ++ [' '])
          else r1).2).Perm acc.2 := by
      intro r1 hr1
      split
      · rename_i hc
        exact (consume_append_perm (by simpa using hc) (ih ..)).trans hr1
      · exact hr1
    exact (h2 _ h1).trans hacc

theorem right_part_perm :
    ∀ (fuel : Nat) (b : Board) (rack : List Char) (apos : Position) (aidx : Nat)
      (cc : Position → List Char) (pword : List Char) (n : Node) (pos : Position)
      (placed : Move),
      ((right_part fuel b rack apos aidx cc pword n pos placed).2).Perm rack := by
  intro fuel
  induction fuel with
  | zero => intros; exact List.Perm.refl _
  | succ f ih =>
    intro b rack apos aidx cc pword n pos placed
    unfold right_part
    split
    · exact List.Perm.refl _
    · split
      · exact List.Perm.refl _
      · rename_i current_tile heq
        split
        · dsimp only
          split
          · exact List.Perm.refl _
          · refine List.foldlRecOn
              (motive := fun acc : List Move × List Char => (acc.2).Perm rack)
              _ _ _ (List.Perm.refl _) ?_
            intro acc hacc en _
            dsimp only
            split
            · have h1 : ((if acc.2.contains en.1 then
                  (acc.1 ++ (right_part f b (acc.2.erase en.1) apos aidx cc
                      (pword ++ [en.1]) en.2 (pos.1, pos.2 + 1)
                      ⟨placed.tiles ++ [(en.1, pos)]⟩).1,
                   (right_part f b (acc.2.erase en.1) apos aidx cc
                      (pword ++ [en.1]) en.2 (pos.1, pos.2 + 1)
                      ⟨placed.tiles ++ [(en.1, pos)]⟩).2 ++ [en.1])
                else acc).2).Perm acc.2 := by
                split
                · rename_i hc
                  exact consume_append_perm (by simpa using hc) (ih ..)
                · exact List.Perm.refl _
              have h2 : ∀ r1 : List Move × List Char, (r1.2).Perm acc.2 →
                  ((if r1.2.contains ' ' then
                      (r1.1 ++ (right_part f b (r1.2.erase ' ') apos aidx cc
                          (pword ++ [en.1.toLower]) en.2 (pos.1, pos.2 + 1)
                          ⟨placed.tiles ++ [(en.1.toLower, pos)]⟩).1,
                       (right_part f b (r1.2.erase ' ') apos aidx cc
                          (pword ++ [en.1.toLower]) en.2 (pos.1, pos.2 + 1)
                          ⟨placed.tiles ++ [(en.1.toLower, pos)]⟩).2 ++ [' '])
                    else r1).2).Perm acc.2 := by
                intro r1 hr1
                split
                · rename_i hc
                  exact (consume_append_perm (by simpa using hc) (ih ..)).trans hr1
                · exact hr1
              exact (h2 _ h1).trans hacc
            · exact hacc
        · split
          · exact ih ..
          · exact List.Perm.refl _

theorem left_extend_perm :
    ∀ (limit : Nat) (b : Board) (cc : Position → List Char) (anchor : Position)
      (rack pword : List Char) (n : Node),
      ((left_extend b cc anchor rack pword n limit).2).Perm rack := by
  intro limit
  induction limit with
  | zero =>
    intro b cc anchor rack pword n
    unfold left_extend
    exact right_part_perm ..
  | succ l ih =>
    intro b cc anchor rack pword n
    unfold left_extend
    dsimp only
    refine List.foldlRecOn
      (motive := fun acc : List Move × List Char => (acc.2).Perm rack)
      _ _ _ (right_part_perm ..) ?_
    intro acc hacc en _
    dsimp only
    have h1 : ((if acc.2.contains en.1 then
        (acc.1 ++ (left_extend b cc anchor (acc.2.erase en.1) (pword ++ [en.1]) en.2 l).1,
         (left_extend b cc anchor (acc.2.erase en.1) (pword ++ [en.1]) en.2 l).2 ++ [en.1])
      else acc).2).Perm acc.2 := by
      split
      · rename_i hc
        exact consume_append_perm (by simpa using hc) (ih ..)
      · exact List.Perm.refl _
    have h2 : ∀ r1 : List Move × List Char, (r1.2).Perm acc.2 →
        ((if r1.2.contains ' ' then
            (r1.1 ++ (left_extend b cc anchor (r1.2.erase ' ')
                (pword ++ [en.1.toLower]) en.2 l).1,
             (left_extend b cc anchor (r1.2.erase ' ')
                (pword ++ [en.1.toLower]) en.2 l).2 ++ [' '])
          else r1).2).Perm acc.2 := by
      intro r1 hr1
      split
      · rename_i hc
        exact (consume_append_perm (by simpa using hc) (ih ..)).trans hr1
      · exact hr1
    exact (h2 _ h1).trans hacc

theorem across_at_anchor_perm (dict : Tree) (b : Board)
    (cc : Position → List Char) (anchors : List Position)
    (rack : List Char) (anchor : Position) :
    ((across_moves_at_anchor dict b cc anchors rack anchor).2).Perm rack := by
  unfold across_moves_at_anchor
  dsimp only
  split
  · exact left_extend_perm ..
  · split
    · exact List.Perm.refl _
    · exact right_part_perm ..

theorem calc_all_across_moves_perm (dict : Tree) (b : Board) (rack : List Char) :
    ((calc_all_across_moves dict b rack).2).Perm rack := by
  unfold calc_all_across_moves
  dsimp only
  refine List.foldlRecOn
    (motive := fun acc : List Move × List Char => (acc.2).Perm rack)
    _ _ _ (List.Perm.refl _) ?_
  intro acc hacc anchor _
  dsimp only
  exact (across_at_anchor_perm ..).trans hacc

/-- C7 counterexample: with rack `['A', 'B']` and a trie that has an `A`
edge, one call to `_left_part` returns with the rack reordered to
`['B', 'A']` — the consumed tile is re-appended at the end, so the rack
is not left equal *as a sequence*. -/
theorem left_part_rack_reordered :
    (left_part ['A', 'B'] [] (Node.mk false [('A', Node.mk true [])]) 1).2 = ['B', 'A'] ∧
    (['B', 'A'] : List Char) ≠ ['A', 'B'] := by
  exact ⟨by decide, by decide⟩

/-- C7 amended: every call into `_left_part`, `_right_part`, and the
per-pass enumeration `_calc_all_across_moves` returns the rack holding
the same *multiset* of tiles as before the call (each `remove` is paired
with an `append`), but not necessarily in the same order: a consumed
tile is re-appended at the end of the list. -/
theorem rack_multiset_preserved :
    (∀ (rack pword : List Char) (n : Node) (limit : Nat),
      ((left_part rack pword n limit).2).Perm rack) ∧
    (∀ (fuel : Nat) (b : Board) (rack : List Char) (apos : Position) (aidx : Nat)
      (cc : Position → List Char) (pword : List Char) (n : Node) (pos : Position)
      (placed : Move),
      ((right_part fuel b rack apos aidx cc pword n pos placed).2).Perm rack) ∧
    (∀ (dict : Tree) (b : Board) (rack : List Char),
      ((calc_all_across_moves dict b rack).2).Perm rack) := by
  refine ⟨fun rack pword n limit => left_part_perm limit rack pword n,
    right_part_perm, calc_all_across_moves_perm⟩

/-! ### Every generated move places at most 7 tiles -/

theorem anchored_to_moves_length (w : List Char) (p : Position) (i : Nat) (a : Bool) :
    (Move.anchored_to_moves w p i a).tiles.length = w.length := by
  simp [Move.anchored_to_moves]

theorem transpose_tiles_length (mv : Move) :
    mv.transpose.tiles.length = mv.tiles.length := by
  simp [Move.transpose]

theorem right_part_len :
    ∀ (fuel : Nat) (b : Board) (rack : List Char) (apos : Position) (aidx : Nat)
      (cc : Position → List Char) (pword : List Char) (n : Node) (pos : Position)
      (placed : Move),
      placed.tiles.length ≤ 7 →
      ∀ mv ∈ (right_part fuel b rack apos aidx cc pword n pos placed).1,
        mv.tiles.length ≤ 7 := by
  intro fuel
  induction fuel with
  | zero => intro b rack apos aidx cc pword n pos placed hp mv h; simp [right_part] at h
  | succ f ih =>
    intro b rack apos aidx cc pword n pos placed hp mv h
    unfold right_part at h
    split at h
    · split at h
      · rcases List.mem_singleton.mp h with rfl
        exact hp
      · simp at h
    · split at h
      · simp at h
      · rename_i current_tile heq
        split at h
        · dsimp only at h
          split at h
          · rename_i h7
            split at h
            · rcases List.mem_singleton.mp h with rfl
              exact hp
            · simp at h
          · rename_i h7
            revert h
            refine List.foldlRecOn
              (motive := fun acc : List Move × List Char =>
                mv ∈ acc.1 → mv.tiles.length ≤ 7)
              _ _ _ ?_ ?_
            · intro h
              split at h
              · rcases List.mem_singleton.mp h with rfl
                exact hp
              · simp at h
            · intro acc hacc en _ h
              split at h
              · split at h
                · split at h
                  · rcases List.mem_append.mp h with h' | h'
                    · rcases List.mem_append.mp h' with h'' | h''
                      · exact hacc h''
                      · refine ih _ _ _ _ _ _ _ _ _ ?_ mv h''
                        simp only [List.length_append, List.length_singleton]
                        omega
                    · refine ih _ _ _ _ _ _ _ _ _ ?_ mv h'
                      simp only [List.length_append, List.length_singleton]
                      omega
                  · rcases List.mem_append.mp h with h' | h'
                    · exact hacc h'
                    · refine ih _ _ _ _ _ _ _ _ _ ?_ mv h'
                      simp only [List.length_append, List.length_singleton]
                      omega
                · split at h
                  · rcases List.mem_append.mp h with h' | h'
                    · exact hacc h'
                    · refine ih _ _ _ _ _ _ _ _ _ ?_ mv h'
                      simp only [List.length_append, List.length_singleton]
                      omega
                  · exact hacc h
              · exact hacc h
        · split at h
          · exact ih _ _ _ _ _ _ _ _ _ hp mv h
          · simp at h

theorem left_extend_len :
    ∀ (limit : Nat) (b : Board) (cc : Position → List Char) (anchor : Position)
      (rack pword : List Char) (n : Node),
      pword.length + limit ≤ 6 →
      ∀ mv ∈ (left_extend b cc anchor rack pword n limit).1,
        mv.tiles.length ≤ 7 := by
  intro limit
  induction limit with
  | zero =>
    intro b cc anchor rack pword n hlen mv h
    unfold left_extend at h
    refine right_part_len _ _ _ _ _ _ _ _ _ _ ?_ mv h
    rw [anchored_to_moves_length]
    omega
  | succ l ih =>
    intro b cc anchor rack pword n hlen mv h
    unfold left_extend at h
    dsimp only at h
    revert h
    refine List.foldlRecOn
      (motive := fun acc : List Move × List Char =>
        mv ∈ acc.1 → mv.tiles.length ≤ 7)
      _ _ _ ?_ ?_
    · intro h
      refine right_part_len _ _ _ _ _ _ _ _ _ _ ?_ mv h
      rw [anchored_to_moves_length]
      omega
    · intro acc hacc en _ h
      split at h
      · split at h
        · dsimp only at h
          rcases List.mem_append.mp h with h' | h'
          · rcases List.mem_append.mp h' with h'' | h''
            · exact hacc h''
            · refine ih _ _ _ _ _ _ ?_ mv h''
              simp only [List.length_append, List.length_singleton]
              omega
          · refine ih _ _ _ _ _ _ ?_ mv h'
            simp only [List.length_append, List.length_singleton]
            omega
        · dsimp only at h
          rcases List.mem_append.mp h with h' | h'
          · exact hacc h'
          · refine ih _ _ _ _ _ _ ?_ mv h'
            simp only [List.length_append, List.length_singleton]
            omega
      · split at h
        · dsimp only at h
          rcases List.mem_append.mp h with h' | h'
          · exact hacc h'
          · refine ih _ _ _ _ _ _ ?_ mv h'
            simp only [List.length_append, List.length_singleton]
            omega
        · exact hacc h


theorem across_at_anchor_len (dict : Tree) (b : Board)
    (cc : Position → List Char) (anchors : List Position)
    (rack : List Char) (anchor : Position) :
    ∀ mv ∈ (across_moves_at_anchor dict b cc anchors rack anchor).1,
      mv.tiles.length ≤ 7 := by
  intro mv h
  unfold across_moves_at_anchor at h
  dsimp only at h
  split at h
  · refine left_extend_len _ _ _ _ _ _ _ ?_ mv h
    simp only [List.length_nil]
    omega
  · split at h
    · simp at h
    · exact right_part_len _ _ _ _ _ _ _ _ _ _ (by simp) mv h

theorem calc_all_across_moves_len (dict : Tree) (b : Board) (rack : List Char) :
    ∀ mv ∈ (calc_all_across_moves dict b rack).1, mv.tiles.length ≤ 7 := by
  intro mv
  unfold calc_all_across_moves
  dsimp only
  refine List.foldlRecOn
    (motive := fun acc : List Move × List Char =>
      mv ∈ acc.1 → mv.tiles.length ≤ 7)
    _ _ _ (by intro h; simp at h) ?_
  intro acc hacc anchor _ h
  dsimp only at h
  rcases List.mem_append.mp h with h' | h'
  · exact hacc h'
  · exact across_at_anchor_len _ _ _ _ _ _ mv h'

/-- C9: every move yielded by `calc_all_moves` — on any board and any
rack, including racks holding more than 7 tiles — places at most 7
tiles; non-empty moves therefore place between 1 and 7 tiles.  The left
part is capped at `min limit 6` tiles and the right-part extension stops
placing once 7 tiles are in the accumulator. -/
theorem calc_all_moves_tile_bound :
    ∀ (dict : Tree) (b : Board) (rack : List Char) (mv : Move),
      mv ∈ calc_all_moves dict b rack →
      mv.tiles.length ≤ 7 ∧ (mv.tiles ≠ [] → 1 ≤ mv.tiles.length) := by
  intro dict b rack mv h
  refine ⟨?_, fun hne => by
    cases hmv : mv.tiles with
    | nil => exact absurd hmv hne
    | cons a l => simp [hmv]⟩
  unfold calc_all_moves at h
  dsimp only at h
  rcases List.mem_append.mp h with h' | h'
  · rcases List.mem_append.mp h' with h'' | h''
    · exact calc_all_across_moves_len _ _ _ mv h''
    · rcases List.mem_map.mp h'' with ⟨x, hx, rfl⟩
      rw [transpose_tiles_length]
      exact calc_all_across_moves_len _ _ _ x hx
  · rcases List.mem_singleton.mp h' with rfl
    simp

/-- The lexicon `{AB}` as a trie. -/
def ab_tree : Tree :=
  ⟨Node.mk false [('A', Node.mk false [('B', Node.mk true [])])]⟩

set_option maxRecDepth 1000000 in
/-- Witness for `calc_all_moves_tile_bound`: with `A` on the centre
square, lexicon `{AB}` and rack `['B']`, the generator yields the move
placing `B` at `(7, 8)`; it places 1 ≤ 7 tiles. -/
theorem calc_all_moves_tile_bound_witness :
    (⟨[('B', ((7 : Int), (8 : Int)))]⟩ : Move) ∈ calc_all_moves ab_tree centre_board ['B'] ∧
    (⟨[('B', ((7 : Int), (8 : Int)))]⟩ : Move).tiles.length ≤ 7 := by
  refine ⟨by decide, ?_⟩
  exact (calc_all_moves_tile_bound ab_tree centre_board ['B'] _ (by decide)).1

/-! ### Pass-move structure of the enumeration -/

theorem right_part_yield_ne :
    ∀ (fuel : Nat) (b : Board) (rack : List Char) (apos : Position) (aidx : Nat)
      (cc : Position → List Char) (pword : List Char) (n : Node) (pos : Position)
      (placed : Move),
      ((pword.length = aidx ∧
          (out_of_bounds pos = true ∨ b.get_square pos = some ' ')) ∨
        placed.tiles ≠ []) →
      ∀ mv ∈ (right_part fuel b rack apos aidx cc pword n pos placed).1,
        mv.tiles ≠ [] := by
  intro fuel
  induction fuel with
  | zero => intro b rack apos aidx cc pword n pos placed hP mv h; simp [right_part] at h
  | succ f ih =>
    intro b rack apos aidx cc pword n pos placed hP mv h
    unfold right_part at h
    split at h
    · rename_i hoob
      split at h
      · rename_i hcond
        rcases List.mem_singleton.mp h with rfl
        rcases hP with ⟨hlen, _⟩ | hne
        · exact absurd hlen hcond.1
        · exact hne
      · simp at h
    · rename_i hoob
      split at h
      · simp at h
      · rename_i current_tile heq
        split at h
        · rename_i hsp
          dsimp only at h
          split at h
          · split at h
            · rename_i hcond
              rcases List.mem_singleton.mp h with rfl
              rcases hP with ⟨hlen, _⟩ | hne
              · exact absurd hlen hcond.1
              · exact hne
            · simp at h
          · revert h
            refine List.foldlRecOn
              (motive := fun acc : List Move × List Char =>
                mv ∈ acc.1 → mv.tiles ≠ [])
              _ _ _ ?_ ?_
            · intro h
              split at h
              · rename_i hcond
                rcases List.mem_singleton.mp h with rfl
                rcases hP with ⟨hlen, _⟩ | hne
                · exact absurd hlen hcond.1
                · exact hne
              · simp at h
            · intro acc hacc en _ h
              split at h
              · split at h
                · split at h
                  · rcases List.mem_append.mp h with h' | h'
                    · rcases List.mem_append.mp h' with h'' | h''
                      · exact hacc h''
                      · exact ih _ _ _ _ _ _ _ _ _ (Or.inr (by simp)) mv h''
                    · exact ih _ _ _ _ _ _ _ _ _ (Or.inr (by simp)) mv h'
                  · rcases List.mem_append.mp h with h' | h'
                    · exact hacc h'
                    · exact ih _ _ _ _ _ _ _ _ _ (Or.inr (by simp)) mv h'
                · split at h
                  · rcases List.mem_append.mp h with h' | h'
                    · exact hacc h'
                    · exact ih _ _ _ _ _ _ _ _ _ (Or.inr (by simp)) mv h'
                  · exact hacc h
              · exact hacc h
        · rename_i hsp
          split at h
          · refine ih _ _ _ _ _ _ _ _ _ ?_ mv h
            rcases hP with ⟨hlen, hor⟩ | hne
            · rcases hor with hoob2 | hemp
              · exact absurd hoob2 hoob
              · rw [heq] at hemp
                injection hemp with hemp
                exact absurd hemp hsp
            · exact Or.inr hne
          · simp at h

theorem left_extend_ne :
    ∀ (limit : Nat) (b : Board) (cc : Position → List Char) (anchor : Position)
      (rack pword : List Char) (n : Node),
      b.get_square anchor = some ' ' →
      ∀ mv ∈ (left_extend b cc anchor rack pword n limit).1, mv.tiles ≠ [] := by
  intro limit
  induction limit with
  | zero =>
    intro b cc anchor rack pword n hanchor mv h
    unfold left_extend at h
    exact right_part_yield_ne _ _ _ _ _ _ _ _ _ _
      (Or.inl ⟨rfl, Or.inr hanchor⟩) mv h
  | succ l ih =>
    intro b cc anchor rack pword n hanchor mv h
    unfold left_extend at h
    dsimp only at h
    revert h
    refine List.foldlRecOn
      (motive := fun acc : List Move × List Char => mv ∈ acc.1 → mv.tiles ≠ [])
      _ _ _ (fun h => right_part_yield_ne _ _ _ _ _ _ _ _ _ _
        (Or.inl ⟨rfl, Or.inr hanchor⟩) mv h) ?_
    intro acc hacc en _ h
    split at h
    · split at h
      · dsimp only at h
        rcases List.mem_append.mp h with h' | h'
        · rcases List.mem_append.mp h' with h'' | h''
          · exact hacc h''
          · exact ih _ _ _ _ _ _ hanchor mv h''
        · exact ih _ _ _ _ _ _ hanchor mv h'
      · dsimp only at h
        rcases List.mem_append.mp h with h' | h'
        · exact hacc h'
        · exact ih _ _ _ _ _ _ hanchor mv h'
    · split at h
      · dsimp only at h
        rcases List.mem_append.mp h with h' | h'
        · exact hacc h'
        · exact ih _ _ _ _ _ _ hanchor mv h'
      · exact hacc h

theorem across_at_anchor_ne (dict : Tree) (b : Board)
    (cc : Position → List Char) (anchors : List Position)
    (rack : List Char) (anchor : Position)
    (hanchor : b.get_square anchor = some ' ') :
    ∀ mv ∈ (across_moves_at_anchor dict b cc anchors rack anchor).1,
      mv.tiles ≠ [] := by
  intro mv h
  unfold across_moves_at_anchor at h
  dsimp only at h
  split at h
  · exact left_extend_ne _ _ _ _ _ _ _ hanchor mv h
  · split at h
    · simp at h
    · exact right_part_yield_ne _ _ _ _ _ _ _ _ _ _
        (Or.inl ⟨rfl, Or.inr hanchor⟩) mv h

theorem calc_all_across_ne (dict : Tree) (b : Board) (rack : List Char)
    (hanch : ∀ a ∈ anchors_used b, b.get_square a = some ' ') :
    ∀ mv ∈ (calc_all_across_moves dict b rack).1, mv.tiles ≠ [] := by
  intro mv
  unfold calc_all_across_moves
  dsimp only
  refine List.foldlRecOn
    (motive := fun acc : List Move × List Char => mv ∈ acc.1 → mv.tiles ≠ [])
    _ _ _ (by intro h; simp at h) ?_
  intro acc hacc anchor hmem h
  dsimp only at h
  rcases List.mem_append.mp h with h' | h'
  · exact hacc h'
  · exact across_at_anchor_ne _ _ _ _ _ _ (hanch anchor hmem) mv h'

/-- C8, amended: provided every anchor square actually iterated is an
empty cell — true whenever some empty cell has an occupied neighbour, or
the board (equivalently its centre) is empty; only a fully occupied
board violates it — `calc_all_moves` is the across-pass moves, then the
transposed down-pass moves, then the pass move: the empty move appears
exactly once and last, and every across move is yielded before every
down move. -/
theorem calc_all_moves_pass_structure :
    ∀ (dict : Tree) (b : Board) (rack : List Char),
      (∀ a ∈ anchors_used b, b.get_square a = some ' ') →
      (∀ a ∈ anchors_used b.transpose, b.transpose.get_square a = some ' ') →
      calc_all_moves dict b rack =
        (calc_all_across_moves dict b rack).1
        ++ ((calc_all_across_moves dict b.transpose
            (calc_all_across_moves dict b rack).2).1.map Move.transpose)
        ++ [Move.mk []] ∧
      (calc_all_moves dict b rack).count (Move.mk []) = 1 ∧
      (calc_all_moves dict b rack).getLast? = some (Move.mk []) := by
  intro dict b rack h1 h2
  have hA := calc_all_across_ne dict b rack h1
  have hB := calc_all_across_ne dict b.transpose
    (calc_all_across_moves dict b rack).2 h2
  refine ⟨rfl, ?_, ?_⟩
  · unfold calc_all_moves
    dsimp only
    rw [List.count_append, List.count_append]
    have c1 : (calc_all_across_moves dict b rack).1.count (Move.mk []) = 0 := by
      rw [List.count_eq_zero]
      intro hmem
      exact hA _ hmem rfl
    have c2 : ((calc_all_across_moves dict b.transpose
        (calc_all_across_moves dict b rack).2).1.map Move.transpose).count
        (Move.mk []) = 0 := by
      rw [List.count_eq_zero]
      intro hmem
      rcases List.mem_map.mp hmem with ⟨x, hx, hxe⟩
      refine hB x hx ?_
      have ht : (x.tiles.map (fun tp => (tp.1, (tp.2.2, tp.2.1)))) = [] := by
        injection hxe
      exact List.map_eq_nil_iff.mp ht
    rw [c1, c2]
    rfl
  · unfold calc_all_moves
    dsimp only
    rw [List.getLast?_concat]

/-- The empty lexicon. -/
def triv_tree : Tree := ⟨Node.mk false []⟩

set_option maxRecDepth 1000000 in
/-- Witness for `calc_all_moves_pass_structure` on the empty board. -/
theorem calc_all_moves_pass_structure_witness :
    (calc_all_moves triv_tree Board.empty []).count (Move.mk []) = 1 ∧
    (calc_all_moves triv_tree Board.empty []).getLast? = some (Move.mk []) := by
  have h := calc_all_moves_pass_structure triv_tree Board.empty []
    (by decide) (by decide)
  exact ⟨h.2.1, h.2.2⟩

/-- The single-word lexicon whose word is 15 `A`s. -/
def chain_node : Nat → Node
  | 0 => Node.mk true []
  | n + 1 => Node.mk false [('A', chain_node n)]

/-- Tree for the word `AAAAAAAAAAAAAAA`. -/
def chain_tree : Tree := ⟨chain_node 15⟩

set_option maxRecDepth 1000000 in
/-- C8 counterexample: on the fully occupied board of `A`s with the
15-`A` word in the lexicon, the centre-square fallback anchor sits on an
occupied cell and each pass walks the full row of existing tiles to a
terminal node, yielding the empty move from the across pass and again
from the down pass — three empty moves in total, so the empty move is
neither unique nor only last. -/
theorem calc_all_moves_full_board_extra_pass :
    calc_all_moves chain_tree full_board [] = [Move.mk [], Move.mk [], Move.mk []] ∧
    (calc_all_moves chain_tree full_board []).count (Move.mk []) = 3 := by
  have h : calc_all_moves chain_tree full_board [] =
      [Move.mk [], Move.mk [], Move.mk []] := by decide
  exact ⟨h, by rw [h]; rfl⟩

end Scrabble
